import Mathlib

/-!
# Verification of the Hurricane-Explainer-Engine grid pipeline

Shallow embedding of the grid-normalization and channel-encoding pipeline of
the repository (src/backend/app.py and the src/scripts/preprocess_*.py
scripts), together with proofs settling the frozen claims about it.

Modelling conventions:
* IEEE-754 doubles/floats whose values the claims quantify over are modelled
  as exact rationals (`ℚ`); non-finite float cells (NaN/±inf) are modelled by
  a dedicated tag (`FVal.nonfin`), which is adequate because every use in the
  code either masks non-finite cells explicitly or is out of a claim's scope.
* numpy arrays are lists (axes) and lists of row lists (2-D fields).
* Code that raises a Python exception (IndexError on `lon[1]` for an axis of
  fewer than two samples, OverflowError on `int(inf)` after a division by a
  zero spacing) is modelled with `Option`, `none` being the raise.
* `np.round` rounds half to even (banker's rounding); `astype(np.uint8)` /
  `astype(np.uint32)` truncate toward zero; Python `%` on floats and
  `np.argsort` are modelled directly below.
-/

/-- Python float `%` (and numpy `%`): `a - b * floor (a / b)`. -/
def qmod (a b : ℚ) : ℚ := a - b * (⌊a / b⌋ : ℤ)

/-- `((x + 180.0) % 360.0) - 180.0`, the longitude wrap used by
`to_minus180_180`. -/
def wrap180 (x : ℚ) : ℚ := qmod (x + 180) 360 - 180

/-- `np.round` on a scalar: round half to even (banker's rounding). -/
def roundHalfEven (x : ℚ) : ℤ :=
  if x - (⌊x⌋ : ℤ) < 1/2 then ⌊x⌋
  else if 1/2 < x - (⌊x⌋ : ℤ) then ⌊x⌋ + 1
  else if 2 ∣ ⌊x⌋ then ⌊x⌋ else ⌊x⌋ + 1

/-- `float(np.round(t * 1e6) / 1e6)`: spacing rounded to 6 decimals. -/
def round6 (x : ℚ) : ℚ := ((roundHalfEven (x * 1000000) : ℤ) : ℚ) / 1000000

/-- A float cell: either a finite value or a non-finite one (NaN or ±inf). -/
inductive FVal where
  | fin (q : ℚ)
  | nonfin
deriving DecidableEq

/-- One cell of `scale_fixed_range` (src/scripts/preprocess_uvz.py lines
61-74, identical in preprocess_temperature.py):
`if not isfinite(vmin) or not isfinite(vmax) or vmax <= vmin: return zeros;
scaled = (a - vmin) / (vmax - vmin); scaled = clip(scaled*255, 0, 255);
out = scaled.astype(uint8); out[~isfinite(a)] = 0`.
`vmin`/`vmax` are rationals, hence finite.  `astype(np.uint8)` truncates
toward zero, which on the clipped non-negative value is the floor.  A
non-finite cell is zeroed by the final mask whatever the intermediate
arithmetic produced. -/
def scale_fixed_range_cell (a : FVal) (vmin vmax : ℚ) : ℕ :=
  if vmax ≤ vmin then 0
  else
    match a with
    | .nonfin => 0
    | .fin q =>
      let scaled := (q - vmin) / (vmax - vmin)
      let clipped := min (max (scaled * 255) 0) 255
      (⌊clipped⌋).toNat

/-- Array form of `scale_fixed_range`: the numpy expression applies the cell
computation elementwise. -/
def scale_fixed_range (a : List (List FVal)) (vmin vmax : ℚ) : List (List ℕ) :=
  a.map (fun row => row.map (fun x => scale_fixed_range_cell x vmin vmax))

/-- `scaled = np.round((elev_m + 10000.0) / 0.1).astype(np.uint32)` for one
cell (src/backend/app.py lines 154-158, identical in
src/scripts/preprocess_gph.py): banker's rounding, then the uint32 cast
(wrap modulo `2^32`). -/
def terrain_scaled (v : ℚ) : ℕ :=
  ((roundHalfEven ((v + 10000) / (1/10)) % (2 ^ 32 : ℤ))).toNat

/-- `r = (scaled >> 16) & 255` (the following `astype(np.uint8)` is the
identity on a value `≤ 255`). -/
def terrain_r (v : ℚ) : ℕ := (terrain_scaled v >>> 16) &&& 255

/-- `g = (scaled >> 8) & 255`. -/
def terrain_g (v : ℚ) : ℕ := (terrain_scaled v >>> 8) &&& 255

/-- `b = scaled & 255`. -/
def terrain_b (v : ℚ) : ℕ := terrain_scaled v &&& 255

/-- The decoder stated by the spec: `value_m = (R<<16 | G<<8 | B) * 0.1 -
10000.0`. -/
def terrain_decode (r g b : ℕ) : ℚ :=
  (((r <<< 16) ||| (g <<< 8) ||| b : ℕ) : ℚ) * (1/10) - 10000

/-- The latitude orientation fix (src/backend/app.py lines 322-326, same
block in src/scripts/preprocess_gph.py main, lines 132-135):
`if lat_work[0] < lat_work[-1]: elev_fixed = elev_fixed[::-1, :];
lat_work = lat_work[::-1]`. -/
def lat_flip (lat : List ℚ) (field : List (List ℚ)) :
    List ℚ × List (List ℚ) :=
  if lat.getD 0 0 < lat.getD (lat.length - 1) 0 then (lat.reverse, field.reverse)
  else (lat, field)

/-- Bounds and pixel dimensions computed by `encode_terrain_rgb_png`
(src/backend/app.py lines 171-181): `ny, nx = elev_m.shape;
min_lon = lon[0] if lon[0] <= lon[-1] else lon[-1]; ...`;
returned as `(bounds, nx, ny)` with `bounds = (minLon, minLat, maxLon,
maxLat)`.  The PNG byte serialization is out of scope (TileCodec). -/
def encode_terrain_rgb_png_meta (elev_m : List (List ℚ)) (lat lon : List ℚ) :
    (ℚ × ℚ × ℚ × ℚ) × ℕ × ℕ :=
  let ny := elev_m.length
  let nx := (elev_m.getD 0 []).length
  let min_lon := if lon.getD 0 0 ≤ lon.getD (lon.length - 1) 0 then lon.getD 0 0
    else lon.getD (lon.length - 1) 0
  let max_lon := if lon.getD 0 0 ≤ lon.getD (lon.length - 1) 0 then lon.getD (lon.length - 1) 0
    else lon.getD 0 0
  let min_lat := if lat.getD 0 0 ≤ lat.getD (lat.length - 1) 0 then lat.getD 0 0
    else lat.getD (lat.length - 1) 0
  let max_lat := if lat.getD 0 0 ≤ lat.getD (lat.length - 1) 0 then lat.getD (lat.length - 1) 0
    else lat.getD 0 0
  ((min_lon, min_lat, max_lon, max_lat), nx, ny)

/-- Bounds and pixel dimensions computed by `encode_landmask_png`
(src/backend/app.py lines 232-238); the mask is a boolean array, the
bounds/dims code is the same as in `encode_terrain_rgb_png`. -/
def encode_landmask_png_meta (mask_land : List (List Bool)) (lat lon : List ℚ) :
    (ℚ × ℚ × ℚ × ℚ) × ℕ × ℕ :=
  let ny := mask_land.length
  let nx := (mask_land.getD 0 []).length
  let min_lon := if lon.getD 0 0 ≤ lon.getD (lon.length - 1) 0 then lon.getD 0 0
    else lon.getD (lon.length - 1) 0
  let max_lon := if lon.getD 0 0 ≤ lon.getD (lon.length - 1) 0 then lon.getD (lon.length - 1) 0
    else lon.getD 0 0
  let min_lat := if lat.getD 0 0 ≤ lat.getD (lat.length - 1) 0 then lat.getD 0 0
    else lat.getD (lat.length - 1) 0
  let max_lat := if lat.getD 0 0 ≤ lat.getD (lat.length - 1) 0 then lat.getD (lat.length - 1) 0
    else lat.getD 0 0
  ((min_lon, min_lat, max_lon, max_lat), nx, ny)

/-- `lon.min() >= -180 and lon.max() <= 180` (for a non-empty axis). -/
def canonical180 (lon : List ℚ) : Bool :=
  lon.all (fun x => decide (-180 ≤ x) && decide (x ≤ 180))

/-- The comparison `np.argsort` effectively sorts index `i` by key `W[i]`;
ties are broken by index, making the permutation a deterministic function of
the key list (numpy's quicksort is deterministic as well, and no claim in
scope depends on the tie order). -/
def keyRel (W : List ℚ) (i j : ℕ) : Prop :=
  W.getD i 0 < W.getD j 0 ∨ (W.getD i 0 = W.getD j 0 ∧ i ≤ j)

instance keyRelDecidable (W : List ℚ) : DecidableRel (keyRel W) := fun i j => by
  unfold keyRel; infer_instance

/-- `np.argsort W`: the sorting permutation of `0, …, len W - 1` by key. -/
def argsort (W : List ℚ) : List ℕ :=
  (List.range W.length).insertionSort (keyRel W)

/-- Common core of `to_minus180_180` for an axis with at least two samples
(src/backend/app.py lines 184-211; the same lines appear in
src/scripts/preprocess_gph.py, preprocess_uv.py, preprocess_uvz.py,
preprocess_temperature.py and preprocess_cloud_cover.py):
```
dlon = float(np.round((lon[1] - lon[0]) * 1e6) / 1e6)
if lon.min() >= -180 and lon.max() <= 180: return lon, elev_m
shift = int(np.round((-180.0 - lon[0]) / dlon)) % nx
elev_rot = np.roll(elev_m, shift=shift, axis=1)
lon_rot = ((lon + shift * dlon + 180.0) % 360.0) - 180.0
order = np.argsort(lon_rot)
return lon_rot[order], elev_rot[:, order]
```
`np.roll(row, shift)` puts input column `(j - shift) mod n` at output column
`j`.  When `dlon = 0` the shift computation is `int(±inf)` or `int(nan)`,
which raises — modelled as `none`. -/
def tom180core (lon : List ℚ) (field : List (List ℚ)) :
    Option (List ℚ × List (List ℚ)) :=
  let nx := lon.length
  let dlon := round6 (lon.getD 1 0 - lon.getD 0 0)
  if canonical180 lon then some (lon, field)
  else if dlon = 0 then none
  else
    let s : ℤ := (roundHalfEven ((-180 - lon.getD 0 0) / dlon)) % (nx : ℤ)
    let rolled := field.map (fun row =>
      (List.range row.length).map (fun j =>
        row.getD ((((j : ℤ) - s) % (row.length : ℤ))).toNat 0))
    let lonRot := lon.map (fun x => wrap180 (x + (s : ℚ) * dlon))
    let order := argsort lonRot
    some (order.map (fun i => lonRot.getD i 0),
          rolled.map (fun row => order.map (fun i => row.getD i 0)))

/-- `to_minus180_180` as in src/backend/app.py lines 184-211 and
src/scripts/preprocess_gph.py lines 47-60: no guard on the axis length, so
`lon[1]` raises IndexError for an axis of fewer than two samples (`none`). -/
def to_minus180_180 (lon : List ℚ) (field : List (List ℚ)) :
    Option (List ℚ × List (List ℚ)) :=
  if lon.length < 2 then none else tom180core lon field

/-- `to_minus180_180` as in src/scripts/preprocess_uv.py lines 44-60,
preprocess_uvz.py lines 41-57 and preprocess_temperature.py lines 41-57:
`if nx < 2: return lon, field` guards the degenerate axis. -/
def to_minus180_180_script (lon : List ℚ) (field : List (List ℚ)) :
    Option (List ℚ × List (List ℚ)) :=
  if lon.length < 2 then some (lon, field) else tom180core lon field

/-! ## Helper lemmas about the rational arithmetic primitives -/

theorem qmod_nonneg (a b : ℚ) (hb : 0 < b) : 0 ≤ qmod a b := by
  have h := Int.floor_le (a / b)
  have : (⌊a / b⌋ : ℚ) * b ≤ a / b * b := by
    exact mul_le_mul_of_nonneg_right h (le_of_lt hb)
  rw [div_mul_cancel₀ a (ne_of_gt hb)] at this
  unfold qmod
  nlinarith

theorem qmod_lt (a b : ℚ) (hb : 0 < b) : qmod a b < b := by
  have h := Int.lt_floor_add_one (a / b)
  have : a / b * b < ((⌊a / b⌋ : ℚ) + 1) * b := by
    exact mul_lt_mul_of_pos_right h hb
  rw [div_mul_cancel₀ a (ne_of_gt hb)] at this
  unfold qmod
  nlinarith

theorem wrap180_lb (x : ℚ) : -180 ≤ wrap180 x := by
  have := qmod_nonneg (x + 180) 360 (by norm_num)
  unfold wrap180
  linarith

theorem wrap180_ub (x : ℚ) : wrap180 x < 180 := by
  have := qmod_lt (x + 180) 360 (by norm_num)
  unfold wrap180
  linarith

/-- Equal wraps mean the arguments differ by an integer multiple of 360. -/
theorem wrap180_eq_imp (x y : ℚ) (h : wrap180 x = wrap180 y) :
    ∃ k : ℤ, x - y = 360 * k := by
  unfold wrap180 qmod at h
  refine ⟨⌊(x + 180) / 360⌋ - ⌊(y + 180) / 360⌋, ?_⟩
  push_cast
  linarith

theorem roundHalfEven_sub_abs (x : ℚ) : |(roundHalfEven x : ℚ) - x| ≤ 1/2 := by
  have h1 : (⌊x⌋ : ℚ) ≤ x := Int.floor_le x
  have h2 : x < (⌊x⌋ : ℚ) + 1 := Int.lt_floor_add_one x
  unfold roundHalfEven
  split_ifs with ha hb hc <;> rw [abs_le] <;> push_cast <;>
    constructor <;> linarith

theorem roundHalfEven_nonneg (x : ℚ) (hx : 0 ≤ x) : 0 ≤ roundHalfEven x := by
  have h0 : (0 : ℤ) ≤ ⌊x⌋ := Int.floor_nonneg.2 hx
  unfold roundHalfEven
  split_ifs <;> omega

theorem roundHalfEven_le (x : ℚ) (m : ℤ) (hx : x ≤ (m : ℚ)) :
    roundHalfEven x ≤ m := by
  have hfl : ⌊x⌋ ≤ m := by
    have := Int.floor_le_floor hx
    rwa [Int.floor_intCast] at this
  rcases eq_or_lt_of_le hfl with heq | hlt
  · -- `⌊x⌋ = m`: then `x - ⌊x⌋ ≤ 0 < 1/2`, so the round is the floor.
    have hr : x - ((⌊x⌋ : ℤ) : ℚ) ≤ 0 := by
      rw [heq]; linarith
    unfold roundHalfEven
    split_ifs with ha hb hc <;> first | omega | (exfalso; linarith)
  · unfold roundHalfEven
    split_ifs <;> omega

/-- Reassembling the three extracted bytes of a 24-bit value recovers it. -/
theorem byte_roundtrip (n : ℕ) (hn : n < 2 ^ 24) :
    (((n >>> 16) &&& 255) <<< 16) ||| (((n >>> 8) &&& 255) <<< 8) ||| (n &&& 255) = n := by
  have h255 : (255 : ℕ) = 2 ^ 8 - 1 := by norm_num
  apply Nat.eq_of_testBit_eq
  intro i
  simp only [h255, Nat.testBit_lor, Nat.testBit_land, Nat.testBit_shiftLeft,
    Nat.testBit_shiftRight, Nat.testBit_two_pow_sub_one]
  by_cases h1 : i < 8
  · simp [show ¬(16 ≤ i) by omega, show ¬(8 ≤ i) by omega, h1]
  · by_cases h2 : i < 16
    · have e8 : 8 + (i - 8) = i := by omega
      simp [show ¬(16 ≤ i) by omega, show 8 ≤ i by omega, e8,
        show i - 8 < 8 by omega, show ¬(i < 8) by omega]
    · by_cases h3 : i < 24
      · have e16 : 16 + (i - 16) = i := by omega
        simp [show 16 ≤ i by omega, show 8 ≤ i by omega, e16,
          show i - 16 < 8 by omega, show ¬(i - 8 < 8) by omega,
          show ¬(i < 8) by omega]
      · have hfalse : n.testBit i = false :=
          Nat.testBit_eq_false_of_lt
            (lt_of_lt_of_le hn (Nat.pow_le_pow_right (by norm_num) (by omega)))
        simp [show 16 ≤ i by omega, show 8 ≤ i by omega, hfalse,
          show ¬(i - 16 < 8) by omega, show ¬(i - 8 < 8) by omega,
          show ¬(i < 8) by omega]

/-- C3 (confirmed).  The terrain encoding is invertible to within 0.05 m on
`[-10000, 1667721.5]`: encoding a value with
`scaled = round((value_m + 10000.0)/0.1)` split into bytes
`R = (scaled >> 16) & 255`, `G = (scaled >> 8) & 255`, `B = scaled & 255`
and decoding with `(R<<16 | G<<8 | B) * 0.1 - 10000.0` lands within
`0.05 = 1/20` of the input. -/
theorem terrain_roundtrip_within_half_decimeter (v : ℚ)
    (hlo : -10000 ≤ v) (hhi : v ≤ 3335443/2) :
    |terrain_decode (terrain_r v) (terrain_g v) (terrain_b v) - v| ≤ 1/20 := by
  set x : ℚ := (v + 10000) / (1/10) with hx
  have hx10 : x = (v + 10000) * 10 := by rw [hx]; ring
  have hx0 : 0 ≤ x := by rw [hx10]; nlinarith
  have hxm : x ≤ ((16777215 : ℤ) : ℚ) := by rw [hx10]; push_cast; linarith
  have hr0 : 0 ≤ roundHalfEven x := roundHalfEven_nonneg x hx0
  have hrm : roundHalfEven x ≤ 16777215 := roundHalfEven_le x 16777215 hxm
  have hmod : roundHalfEven x % (2 ^ 32 : ℤ) = roundHalfEven x :=
    Int.emod_eq_of_lt hr0 (by omega)
  have hscaled : terrain_scaled v = (roundHalfEven x).toNat := by
    unfold terrain_scaled
    rw [← hx, hmod]
  have hn24 : terrain_scaled v < 2 ^ 24 := by rw [hscaled]; omega
  have hrt := byte_roundtrip (terrain_scaled v) hn24
  unfold terrain_decode terrain_r terrain_g terrain_b
  rw [hrt, hscaled]
  have hcast : (((roundHalfEven x).toNat : ℕ) : ℚ) = ((roundHalfEven x : ℤ) : ℚ) := by
    exact_mod_cast congrArg (fun z : ℤ => (z : ℚ)) (Int.toNat_of_nonneg hr0)
  rw [hcast]
  have habs := roundHalfEven_sub_abs x
  rw [abs_le] at habs ⊢
  constructor <;> [nlinarith; nlinarith]

/-- Witness for C3 at the spec's sample point `value_m = 8848.0`. -/
theorem terrain_roundtrip_within_half_decimeter_witness :
    (-10000 ≤ (8848 : ℚ)) ∧ ((8848 : ℚ) ≤ 3335443/2) ∧
      |terrain_decode (terrain_r 8848) (terrain_g 8848) (terrain_b 8848) - 8848| ≤ 1/20 :=
  ⟨by norm_num, by norm_num,
    terrain_roundtrip_within_half_decimeter 8848 (by norm_num) (by norm_num)⟩

/-- `getD` with a `[]` default commutes with mapping a `[] ↦ []` function
over the rows. -/
theorem getD_map_nil {α β : Type} (f : List α → List β) (hf : f [] = [])
    (l : List (List α)) (r : ℕ) : (l.map f).getD r [] = f (l.getD r []) := by
  induction l generalizing r with
  | nil => simp [hf]
  | cons a t ih =>
    cases r with
    | zero => simp
    | succ n => simpa using ih n

/-- `getD` of a row mapped by a constant-zero function is `0`. -/
theorem getD_map_zero {α : Type} (g : α → ℕ) (hg : ∀ x, g x = 0)
    (row : List α) (j : ℕ) : (row.map g).getD j 0 = 0 := by
  induction row generalizing j with
  | nil => simp
  | cons a t ih =>
    cases j with
    | zero => simpa using hg a
    | succ n => simpa using ih n

/-- C4 counterexample: at `value = 100.7`, `vmin = 0`, `vmax = 255` the code
produces byte `100` (truncation by `astype(np.uint8)`), while the claimed
formula `round(clip((value - vmin)/(vmax - vmin), 0, 1) * 255)` gives `101`. -/
theorem scale_fixed_range_truncates_not_rounds :
    scale_fixed_range_cell (.fin (1007/10)) 0 255 = 100 ∧
      (roundHalfEven (min (max (((1007:ℚ)/10 - 0) / (255 - 0)) 0) 1 * 255) : ℤ) = 101 := by
  constructor
  · norm_num [scale_fixed_range_cell, min_def, max_def]
    decide
  · norm_num [roundHalfEven, min_def, max_def]

/-- C4 (amended): with `vmin < vmax` the fixed-range scaler computes the
byte `trunc(clip((value - vmin)/(vmax - vmin), 0, 1) * 255)` (truncation,
not rounding); a non-finite input maps to `0`; and with `vmax ≤ vmin` every
cell of the output is `0`. -/
theorem scale_fixed_range_formula (vmin vmax : ℚ) :
    (∀ q : ℚ, vmin < vmax →
      scale_fixed_range_cell (.fin q) vmin vmax
        = (⌊min (max ((q - vmin) / (vmax - vmin)) 0) 1 * 255⌋).toNat)
    ∧ scale_fixed_range_cell .nonfin vmin vmax = 0
    ∧ (vmax ≤ vmin → ∀ (a : List (List FVal)) (r j : ℕ),
        ((scale_fixed_range a vmin vmax).getD r []).getD j 0 = 0) := by
  refine ⟨?_, ?_, ?_⟩
  · intro q hlt
    have hclip : min (max ((q - vmin) / (vmax - vmin)) 0) 1 * 255
        = min (max ((q - vmin) / (vmax - vmin) * 255) 0) 255 := by
      rw [min_mul_of_nonneg _ _ (by norm_num : (0:ℚ) ≤ 255),
        max_mul_of_nonneg _ _ (by norm_num : (0:ℚ) ≤ 255)]
      norm_num
    simp only [scale_fixed_range_cell, if_neg (not_le.mpr hlt)]
    rw [hclip]
  · simp only [scale_fixed_range_cell]
    split_ifs <;> rfl
  · intro h a r j
    have hcell : ∀ x, scale_fixed_range_cell x vmin vmax = 0 := by
      intro x
      simp only [scale_fixed_range_cell, if_pos h]
    unfold scale_fixed_range
    rw [getD_map_nil _ (by simp) a r]
    exact getD_map_zero _ hcell _ j

/-- Witness for C4's amended theorem at concrete inputs. -/
theorem scale_fixed_range_formula_witness :
    ((0:ℚ) < 255) ∧
      scale_fixed_range_cell (.fin 100) 0 255
        = (⌊min (max (((100:ℚ) - 0) / (255 - 0)) 0) 1 * 255⌋).toNat ∧
      scale_fixed_range_cell .nonfin 0 255 = 0 ∧
      ((255:ℚ) ≤ 255) ∧
      ((scale_fixed_range [[.fin 3]] 255 255).getD 0 []).getD 0 0 = 0 :=
  ⟨by norm_num, (scale_fixed_range_formula 0 255).1 100 (by norm_num),
    (scale_fixed_range_formula 0 255).2.1, by norm_num,
    (scale_fixed_range_formula 255 255).2.2 (by norm_num) [[.fin 3]] 0 0⟩

/-- C5 (confirmed).  For `vmin < vmax` the fixed-range scaler maps `vmin` to
`0`, `vmax` to `255`, every non-finite input to `0`, and is monotonically
non-decreasing on `[vmin, vmax]`. -/
theorem scale_fixed_range_boundary_monotone (vmin vmax : ℚ) (h : vmin < vmax) :
    scale_fixed_range_cell (.fin vmin) vmin vmax = 0 ∧
      scale_fixed_range_cell (.fin vmax) vmin vmax = 255 ∧
      scale_fixed_range_cell .nonfin vmin vmax = 0 ∧
      ∀ x y : ℚ, vmin ≤ x → x ≤ y → y ≤ vmax →
        scale_fixed_range_cell (.fin x) vmin vmax
          ≤ scale_fixed_range_cell (.fin y) vmin vmax := by
  have hd : 0 < vmax - vmin := by linarith
  have hne := not_le.mpr h
  refine ⟨?_, ?_, ?_, ?_⟩
  · simp only [scale_fixed_range_cell, if_neg hne]
    norm_num
  · simp only [scale_fixed_range_cell, if_neg hne]
    rw [div_self (ne_of_gt hd)]
    norm_num
    decide
  · simp only [scale_fixed_range_cell, if_neg hne]
  · intro x y hx hxy hy
    simp only [scale_fixed_range_cell, if_neg hne]
    apply Int.toNat_le_toNat
    apply Int.floor_le_floor
    have hratio : (x - vmin) / (vmax - vmin) ≤ (y - vmin) / (vmax - vmin) :=
      (div_le_div_iff_of_pos_right hd).mpr (by linarith)
    have hm : (x - vmin) / (vmax - vmin) * 255 ≤ (y - vmin) / (vmax - vmin) * 255 :=
      mul_le_mul_of_nonneg_right hratio (by norm_num)
    exact min_le_min (max_le_max hm le_rfl) le_rfl

/-- Witness for C5 at `vmin = 0`, `vmax = 10`. -/
theorem scale_fixed_range_boundary_monotone_witness :
    ((0:ℚ) < 10) ∧
      (scale_fixed_range_cell (.fin 0) 0 10 = 0 ∧
        scale_fixed_range_cell (.fin 10) 0 10 = 255 ∧
        scale_fixed_range_cell .nonfin 0 10 = 0 ∧
        ∀ x y : ℚ, 0 ≤ x → x ≤ y → y ≤ 10 →
          scale_fixed_range_cell (.fin x) 0 10
            ≤ scale_fixed_range_cell (.fin y) 0 10) :=
  ⟨by norm_num, scale_fixed_range_boundary_monotone 0 10 (by norm_num)⟩

/-- C6 (confirmed).  When `lat[0] < lat[-1]` (south-to-north input) the
pipeline reverses the latitude axis and the field's rows: the output is
exactly `(lat[::-1], field[::-1, :])`, so output row 0 is the original last
row and output axis entry `i` is original entry `ny - 1 - i` (for the spec's
example, `[-90, -89.75, …, 90]` becomes `[90, 89.75, …, -90]`). -/
theorem lat_flip_reverses_axis_and_rows (lat : List ℚ) (field : List (List ℚ))
    (h : lat.getD 0 0 < lat.getD (lat.length - 1) 0) :
    lat_flip lat field = (lat.reverse, field.reverse)
      ∧ (∀ i, i < lat.length →
          lat.reverse.getD i 0 = lat.getD (lat.length - 1 - i) 0)
      ∧ (∀ r, r < field.length →
          field.reverse.getD r [] = field.getD (field.length - 1 - r) [])
      ∧ (field ≠ [] → field.reverse.getD 0 [] = field.getD (field.length - 1) []) := by
  refine ⟨?_, ?_, ?_, ?_⟩
  · unfold lat_flip
    rw [if_pos h]
  · intro i hi
    have hi' : i < lat.reverse.length := by simpa using hi
    rw [List.getD_eq_getElem _ _ hi', List.getElem_reverse,
      List.getD_eq_getElem _ _ (by omega)]
  · intro r hr
    have hr' : r < field.reverse.length := by simpa using hr
    rw [List.getD_eq_getElem _ _ hr', List.getElem_reverse,
      List.getD_eq_getElem _ _ (by omega)]
  · intro hne
    have hlen : 0 < field.length := List.length_pos.mpr hne
    have hr' : (0:ℕ) < field.reverse.length := by simpa using hlen
    rw [List.getD_eq_getElem _ _ hr', List.getElem_reverse,
      List.getD_eq_getElem _ _ (by omega)]
    simp

/-- Witness for C6 on a small south-to-north axis. -/
theorem lat_flip_reverses_axis_and_rows_witness :
    (([-90, 0, 90] : List ℚ).getD 0 0 < ([-90, 0, 90] : List ℚ).getD (([-90, 0, 90] : List ℚ).length - 1) 0)
      ∧ (lat_flip [-90, 0, 90] [[1], [2], [3]] = ([90, 0, -90], [[3], [2], [1]])
          ∧ (∀ i, i < ([-90, 0, 90] : List ℚ).length →
              ([-90, 0, 90] : List ℚ).reverse.getD i 0
                = ([-90, 0, 90] : List ℚ).getD (([-90, 0, 90] : List ℚ).length - 1 - i) 0)
          ∧ (∀ r, r < ([[1], [2], [3]] : List (List ℚ)).length →
              ([[1], [2], [3]] : List (List ℚ)).reverse.getD r []
                = ([[1], [2], [3]] : List (List ℚ)).getD (([[1], [2], [3]] : List (List ℚ)).length - 1 - r) [])
          ∧ (([[1], [2], [3]] : List (List ℚ)) ≠ [] →
              ([[1], [2], [3]] : List (List ℚ)).reverse.getD 0 []
                = ([[1], [2], [3]] : List (List ℚ)).getD (([[1], [2], [3]] : List (List ℚ)).length - 1) [])) := by
  have h : (([-90, 0, 90] : List ℚ).getD 0 0 < ([-90, 0, 90] : List ℚ).getD (([-90, 0, 90] : List ℚ).length - 1) 0) := by
    norm_num
  have hmain := lat_flip_reverses_axis_and_rows [-90, 0, 90] [[1], [2], [3]] h
  exact ⟨h, by simpa using hmain⟩

/-- C8 (confirmed).  For non-empty axes and a field on that grid, the
encoder metadata equals `((min(lon[0],lon[-1]), min(lat[0],lat[-1]),
max(lon[0],lon[-1]), max(lat[0],lat[-1])), len(lon), len(lat))` — in
particular `minLon ≤ maxLon` and `minLat ≤ maxLat` whatever the internal
axis order — and the land-mask encoder computes the same metadata. -/
theorem encode_bounds_ordered_dims (elev_m : List (List ℚ))
    (mask : List (List Bool)) (lat lon : List ℚ)
    (hlat : lat ≠ []) (hlon : lon ≠ [])
    (he : elev_m.length = lat.length)
    (hrow : ∀ row ∈ elev_m, row.length = lon.length)
    (hm : mask.length = lat.length)
    (hmrow : ∀ row ∈ mask, row.length = lon.length) :
    encode_terrain_rgb_png_meta elev_m lat lon
      = ((min (lon.getD 0 0) (lon.getD (lon.length - 1) 0),
          min (lat.getD 0 0) (lat.getD (lat.length - 1) 0),
          max (lon.getD 0 0) (lon.getD (lon.length - 1) 0),
          max (lat.getD 0 0) (lat.getD (lat.length - 1) 0)),
         lon.length, lat.length)
    ∧ min (lon.getD 0 0) (lon.getD (lon.length - 1) 0)
        ≤ max (lon.getD 0 0) (lon.getD (lon.length - 1) 0)
    ∧ min (lat.getD 0 0) (lat.getD (lat.length - 1) 0)
        ≤ max (lat.getD 0 0) (lat.getD (lat.length - 1) 0)
    ∧ encode_landmask_png_meta mask lat lon
        = encode_terrain_rgb_png_meta elev_m lat lon := by
  have hlat0 : 0 < lat.length := List.length_pos.mpr hlat
  have he0 : elev_m ≠ [] := by
    intro hnil
    rw [hnil] at he
    simp at he
    omega
  have hm0 : mask ≠ [] := by
    intro hnil
    rw [hnil] at hm
    simp at hm
    omega
  have hex : (elev_m.getD 0 []).length = lon.length := by
    have hmem : elev_m.getD 0 [] ∈ elev_m := by
      rw [List.getD_eq_getElem _ _ (List.length_pos.mpr he0)]
      exact List.getElem_mem _
    exact hrow _ hmem
  have hmx : (mask.getD 0 []).length = lon.length := by
    have hmem : mask.getD 0 [] ∈ mask := by
      rw [List.getD_eq_getElem _ _ (List.length_pos.mpr hm0)]
      exact List.getElem_mem _
    exact hmrow _ hmem
  refine ⟨?_, min_le_max, min_le_max, ?_⟩
  · unfold encode_terrain_rgb_png_meta
    simp only [Prod.mk.injEq]
    exact ⟨⟨(min_def _ _).symm, (min_def _ _).symm, (max_def _ _).symm,
      (max_def _ _).symm⟩, hex, he⟩
  · unfold encode_terrain_rgb_png_meta encode_landmask_png_meta
    have hx := hmx.trans hex.symm
    simp only [List.getD, List.get?_eq_getElem?] at hx
    simp [hx, hm.trans he.symm]

/-- Witness for C8 on a concrete 2×2 grid with descending axes. -/
theorem encode_bounds_ordered_dims_witness :
    (([10, 20] : List ℚ) ≠ [] ∧ ([5, -5] : List ℚ) ≠ []
      ∧ ([[1, 2], [3, 4]] : List (List ℚ)).length = ([10, 20] : List ℚ).length
      ∧ (∀ row ∈ ([[1, 2], [3, 4]] : List (List ℚ)),
          row.length = ([5, -5] : List ℚ).length))
    ∧ encode_terrain_rgb_png_meta [[1, 2], [3, 4]] [10, 20] [5, -5]
        = ((-5, 10, 5, 20), 2, 2) := by
  constructor
  · refine ⟨by simp, by simp, by simp, ?_⟩
    intro row hr
    fin_cases hr <;> simp
  · have h := encode_bounds_ordered_dims [[1, 2], [3, 4]]
      [[true, false], [false, true]] [10, 20] [5, -5]
      (by simp) (by simp) (by simp) (by intro row hr; fin_cases hr <;> simp)
      (by simp) (by intro row hr; fin_cases hr <;> simp)
    rw [h.1]
    norm_num [List.getD, min_def, max_def]

/-- C10 (confirmed).  The script-level `to_minus180_180` (preprocess_uv.py,
preprocess_uvz.py, preprocess_temperature.py) returns axis and field
unchanged, without raising, for every axis of fewer than two samples: the
`if nx < 2` guard precedes the `lon[1] - lon[0]` spacing computation. -/
theorem to_minus180_180_script_short_axis_total (lon : List ℚ)
    (field : List (List ℚ)) (h : lon.length < 2) :
    to_minus180_180_script lon field = some (lon, field) := by
  unfold to_minus180_180_script
  rw [if_pos h]

/-- Witness for C10 on a one-sample axis. -/
theorem to_minus180_180_script_short_axis_total_witness :
    (([300] : List ℚ).length < 2)
      ∧ to_minus180_180_script [300] [[1, 2]] = some ([300], [[1, 2]]) :=
  ⟨by decide, to_minus180_180_script_short_axis_total [300] [[1, 2]] (by decide)⟩

/-- C7 counterexample: the backend `to_minus180_180` (no length guard)
raises IndexError on the canonical one-sample ascending axis `[0.0]`
(`lon[1]` is evaluated before the early return), instead of returning the
axis and field unchanged. -/
theorem to_minus180_180_singleton_canonical_raises :
    to_minus180_180 [(0:ℚ)] [[1]] = none := rfl

/-- C7 (amended).  On an ascending axis whose values all lie in
`[-180, 180)` and any field, `to_minus180_180` returns both unchanged — for
the script versions on every such axis, and for the backend version as soon
as the axis has at least two samples (with fewer it raises). -/
theorem to_minus180_180_idempotent_on_canonical (lon : List ℚ)
    (field : List (List ℚ)) (hsorted : List.Sorted (· < ·) lon)
    (hbounds : ∀ x ∈ lon, -180 ≤ x ∧ x < 180) :
    to_minus180_180_script lon field = some (lon, field)
      ∧ (2 ≤ lon.length → to_minus180_180 lon field = some (lon, field)) := by
  have hcanon : canonical180 lon = true := by
    unfold canonical180
    rw [List.all_eq_true]
    intro x hx
    have hb := hbounds x hx
    simp [hb.1, le_of_lt hb.2]
  have hcore : tom180core lon field = some (lon, field) := by
    unfold tom180core
    simp [hcanon]
  constructor
  · unfold to_minus180_180_script
    split_ifs with h
    · rfl
    · exact hcore
  · intro h2
    unfold to_minus180_180
    rw [if_neg (by omega)]
    exact hcore

/-- Witness for C7's amended theorem on the canonical axis `[-180, 0]`. -/
theorem to_minus180_180_idempotent_on_canonical_witness :
    List.Sorted (· < ·) ([-180, 0] : List ℚ)
      ∧ (∀ x ∈ ([-180, 0] : List ℚ), -180 ≤ x ∧ x < 180)
      ∧ (to_minus180_180_script [-180, 0] [[1, 2]] = some ([-180, 0], [[1, 2]])
          ∧ (2 ≤ ([-180, 0] : List ℚ).length →
              to_minus180_180 [-180, 0] [[1, 2]] = some ([-180, 0], [[1, 2]]))) := by
  have h1 : List.Sorted (· < ·) ([-180, 0] : List ℚ) := by
    norm_num [List.sorted_cons]
  have h2 : ∀ x ∈ ([-180, 0] : List ℚ), -180 ≤ x ∧ x < 180 := by
    norm_num
  exact ⟨h1, h2, to_minus180_180_idempotent_on_canonical _ _ h1 h2⟩

/-! ## Properties of `argsort` -/

instance keyRelTotal (W : List ℚ) : IsTotal ℕ (keyRel W) := by
  constructor
  intro i j
  unfold keyRel
  rcases lt_trichotomy (W.getD i 0) (W.getD j 0) with h | h | h
  · exact Or.inl (Or.inl h)
  · rcases le_total i j with hij | hij
    · exact Or.inl (Or.inr ⟨h, hij⟩)
    · exact Or.inr (Or.inr ⟨h.symm, hij⟩)
  · exact Or.inr (Or.inl h)

instance keyRelTrans (W : List ℚ) : IsTrans ℕ (keyRel W) := by
  constructor
  intro a b c hab hbc
  unfold keyRel at *
  rcases hab with h1 | ⟨e1, le1⟩ <;> rcases hbc with h2 | ⟨e2, le2⟩
  · exact Or.inl (h1.trans h2)
  · exact Or.inl (e2 ▸ h1)
  · exact Or.inl (e1 ▸ h2)
  · exact Or.inr ⟨e1.trans e2, le1.trans le2⟩

/-- Any list is the map of `getD` over the range of its length. -/
theorem list_eq_range_map_getD {α : Type} (l : List α) (d : α) :
    (List.range l.length).map (fun i => l.getD i d) = l := by
  apply List.ext_getElem (by simp)
  intro i h1 h2
  simp [List.getD, List.getElem?_eq_getElem h2]

theorem argsort_sorted (W : List ℚ) : List.Sorted (keyRel W) (argsort W) :=
  List.sorted_insertionSort (keyRel W) (List.range W.length)

theorem argsort_perm_range (W : List ℚ) : (argsort W).Perm (List.range W.length) :=
  List.perm_insertionSort (keyRel W) (List.range W.length)

theorem argsort_length (W : List ℚ) : (argsort W).length = W.length := by
  rw [(argsort_perm_range W).length_eq, List.length_range]

theorem argsort_mem_lt (W : List ℚ) {i : ℕ} (hi : i ∈ argsort W) :
    i < W.length := by
  have := (argsort_perm_range W).mem_iff.mp hi
  simpa using this

/-- The axis values reindexed by the argsort permutation are a permutation
of the original values. -/
theorem argsort_map_perm (W : List ℚ) :
    ((argsort W).map (fun i => W.getD i 0)).Perm W := by
  have hp := (argsort_perm_range W).map (fun i => W.getD i 0)
  rwa [list_eq_range_map_getD W 0] at hp

/-- The axis values reindexed by the argsort permutation are nondecreasing. -/
theorem argsort_map_sorted (W : List ℚ) :
    List.Sorted (· ≤ ·) ((argsort W).map (fun i => W.getD i 0)) := by
  refine List.Pairwise.map _ ?_ (argsort_sorted W)
  intro a b hab
  rcases hab with h | ⟨e, _⟩
  · exact le_of_lt h
  · exact le_of_eq e

/-- A nondecreasing list without duplicates is strictly increasing. -/
theorem sorted_lt_of_sorted_le_nodup (l : List ℚ)
    (hle : List.Sorted (· ≤ ·) l) (hnd : l.Nodup) :
    List.Sorted (· < ·) l :=
  (hle.and hnd).imp (fun h => lt_of_le_of_ne h.1 h.2)

/-! ## The longitude axis under uniform spacing -/

theorem uniform_getD (lon : List ℚ) (Δ : ℚ)
    (hΔ : ∀ i, i < lon.length - 1 → lon.getD (i+1) 0 = lon.getD i 0 + Δ) :
    ∀ i, i < lon.length → lon.getD i 0 = lon.getD 0 0 + i * Δ := by
  intro i
  induction i with
  | zero => intro _; simp
  | succ n ih =>
    intro h
    rw [hΔ n (by omega), ih (by omega)]
    push_cast
    ring

/-- A uniformly spaced axis is the arithmetic progression over its range. -/
theorem uniform_rep (lon : List ℚ) (Δ : ℚ)
    (hΔ : ∀ i, i < lon.length - 1 → lon.getD (i+1) 0 = lon.getD i 0 + Δ) :
    lon = (List.range lon.length).map (fun i : ℕ => lon.getD 0 0 + (i : ℚ) * Δ) := by
  apply List.ext_getElem (by simp)
  intro i h1 h2
  rw [List.getElem_map, List.getElem_range, ← List.getD_eq_getElem lon 0 h1]
  exact uniform_getD lon Δ hΔ i h1

/-- Wrapping a uniform axis with spacing `Δ > 0` spanning less than a full
circle produces pairwise distinct values, whatever constant was added. -/
theorem wrapped_nodup (lon : List ℚ) (Δ c : ℚ)
    (hΔ : ∀ i, i < lon.length - 1 → lon.getD (i+1) 0 = lon.getD i 0 + Δ)
    (hpos : 0 < Δ)
    (hspan : ((lon.length - 1 : ℕ) : ℚ) * Δ < 360) :
    (lon.map (fun x => wrap180 (x + c))).Nodup := by
  set a := lon.getD 0 0 with ha
  set n := lon.length with hn
  rw [uniform_rep lon Δ hΔ, List.map_map]
  apply List.Nodup.map_on _ (List.nodup_range _)
  intro i hi j hj heq
  simp only [Function.comp, List.mem_range] at hi hj heq
  obtain ⟨k, hk⟩ := wrap180_eq_imp _ _ heq
  have hk' : ((i:ℚ) - j) * Δ = 360 * k := by
    rw [sub_mul]
    linarith
  have hlen1 : 1 ≤ n := by omega
  have h1 : |(i:ℚ) - (j:ℚ)| * Δ = 360 * |(k:ℚ)| := by
    rw [← abs_of_pos hpos, ← abs_mul, hk', abs_mul]
    norm_num
  have hi' : (i : ℚ) ≤ ((n - 1 : ℕ) : ℚ) := by
    have : (i : ℤ) ≤ ((n - 1 : ℕ) : ℤ) := by omega
    exact_mod_cast this
  have hj' : (j : ℚ) ≤ ((n - 1 : ℕ) : ℚ) := by
    have : (j : ℤ) ≤ ((n - 1 : ℕ) : ℤ) := by omega
    exact_mod_cast this
  have hi0 : (0:ℚ) ≤ (i : ℚ) := by positivity
  have hj0 : (0:ℚ) ≤ (j : ℚ) := by positivity
  have h2 : |(i:ℚ) - (j:ℚ)| ≤ ((n - 1 : ℕ) : ℚ) := by
    rw [abs_sub_le_iff]
    constructor <;> linarith
  have h3 : 360 * |(k:ℚ)| < 360 := by
    calc 360 * |(k:ℚ)| = |(i:ℚ) - (j:ℚ)| * Δ := h1.symm
    _ ≤ ((n - 1 : ℕ) : ℚ) * Δ := mul_le_mul_of_nonneg_right h2 hpos.le
    _ < 360 := hspan
  have h5 : k = 0 := by
    have h4 : |(k:ℚ)| < 1 := by linarith
    have h4' : |k| < 1 := by exact_mod_cast h4
    rcases abs_lt.mp h4' with ⟨hk1, hk2⟩
    omega
  rw [h5] at hk'
  have h6 : ((i:ℚ) - j) * Δ = 0 := by rw [hk']; ring
  rcases mul_eq_zero.mp h6 with h7 | h7
  · have : (i:ℚ) = j := by linarith
    exact_mod_cast this
  · exact absurd h7 (ne_of_gt hpos)

/-- Every wrapped value lies in `[-180, 180)`. -/
theorem wrapped_mem_bounds (lon : List ℚ) (c : ℚ) :
    ∀ x ∈ lon.map (fun y => wrap180 (y + c)), -180 ≤ x ∧ x < 180 := by
  intro x hx
  obtain ⟨y, _, rfl⟩ := List.mem_map.mp hx
  exact ⟨wrap180_lb _, wrap180_ub _⟩

/-- C1 counterexample: the uniformly spaced two-sample axis `[179, 180]` is
already "canonical" for the code (`min ≥ -180`, `max ≤ 180`), so it is
returned unchanged — and it contains `180`, which is not `< 180`. -/
theorem to_minus180_180_canonical_endpoint_180 :
    ∃ lonOut fieldOut,
      to_minus180_180 [(179:ℚ), 180] [[1, 2]] = some (lonOut, fieldOut)
        ∧ ¬ (∀ x ∈ lonOut, x < 180) := by
  refine ⟨[(179:ℚ), 180], [[1, 2]], ?_, ?_⟩
  · unfold to_minus180_180 tom180core
    norm_num [canonical180]
  · intro hall
    have := hall 180 (by simp)
    exact absurd this (by norm_num)

/-- C1 (amended).  For a strictly ascending uniformly spaced axis (spacing
`Δ > 0`, at least two samples, span `(nx-1)·Δ` under a full circle, spacing
not rounded away by `round6`), `to_minus180_180` succeeds and returns an
axis that is strictly increasing with every value in `[-180, 180]` (the
endpoint `180` can only come from an already-canonical axis returned
unchanged; a freshly wrapped axis lies in `[-180, 180)`). -/
theorem to_minus180_180_output_strictMono_bounded
    (lon : List ℚ) (field : List (List ℚ)) (Δ : ℚ)
    (h2 : 2 ≤ lon.length)
    (hΔ : ∀ i, i < lon.length - 1 → lon.getD (i+1) 0 = lon.getD i 0 + Δ)
    (hpos : 0 < Δ)
    (hspan : ((lon.length - 1 : ℕ) : ℚ) * Δ < 360)
    (hr6 : round6 Δ ≠ 0) :
    ∃ lon2 field2, to_minus180_180 lon field = some (lon2, field2)
      ∧ List.Sorted (· < ·) lon2
      ∧ ∀ x ∈ lon2, -180 ≤ x ∧ x ≤ 180 := by
  have hnlt : ¬(lon.length < 2) := by omega
  have hd1 : lon.getD 1 0 - lon.getD 0 0 = Δ := by
    have := hΔ 0 (by omega)
    linarith
  by_cases hcan : canonical180 lon = true
  · refine ⟨lon, field, ?_, ?_, ?_⟩
    · unfold to_minus180_180 tom180core
      rw [if_neg hnlt]
      simp [hcan]
    · rw [uniform_rep lon Δ hΔ]
      refine List.Pairwise.map _ ?_ (List.pairwise_lt_range lon.length)
      intro i j hij
      have : (i : ℚ) < j := by exact_mod_cast hij
      nlinarith
    · intro x hx
      unfold canonical180 at hcan
      rw [List.all_eq_true] at hcan
      have := hcan x hx
      simp only [Bool.and_eq_true, decide_eq_true_eq] at this
      exact this
  · set s : ℤ := (roundHalfEven ((-180 - lon.getD 0 0) / round6 Δ)) % (lon.length : ℤ) with hs
    set W := lon.map (fun x => wrap180 (x + (s : ℚ) * round6 Δ)) with hW
    refine ⟨(argsort W).map (fun i => W.getD i 0),
      (field.map (fun row => (List.range row.length).map (fun j =>
        row.getD ((((j : ℤ) - s) % (row.length : ℤ))).toNat 0))).map
        (fun row => (argsort W).map (fun i => row.getD i 0)), ?_, ?_, ?_⟩
    · unfold to_minus180_180 tom180core
      rw [if_neg hnlt]
      simp only [hd1]
      rw [if_neg hcan, if_neg hr6]
    · have hnd : W.Nodup := wrapped_nodup lon Δ _ hΔ hpos hspan
      have hndA : ((argsort W).map (fun i => W.getD i 0)).Nodup :=
        (argsort_map_perm W).nodup_iff.mpr hnd
      exact sorted_lt_of_sorted_le_nodup _ (argsort_map_sorted W) hndA
    · intro x hx
      have hxW : x ∈ W := (argsort_map_perm W).mem_iff.mp hx
      have hb := wrapped_mem_bounds lon ((s : ℚ) * round6 Δ) x (by rwa [← hW])
      exact ⟨hb.1, le_of_lt hb.2⟩

/-- Witness for C1's amended theorem on the ERA5-style axis
`[0, 90, 180, 270]` with spacing `90`. -/
theorem to_minus180_180_output_strictMono_bounded_witness :
    (2 ≤ ([0, 90, 180, 270] : List ℚ).length
      ∧ (∀ i, i < ([0, 90, 180, 270] : List ℚ).length - 1 →
          ([0, 90, 180, 270] : List ℚ).getD (i+1) 0
            = ([0, 90, 180, 270] : List ℚ).getD i 0 + 90)
      ∧ (0:ℚ) < 90
      ∧ ((([0, 90, 180, 270] : List ℚ).length - 1 : ℕ) : ℚ) * 90 < 360
      ∧ round6 90 ≠ 0)
    ∧ ∃ lon2 field2,
        to_minus180_180 [0, 90, 180, 270] [[1, 2, 3, 4]] = some (lon2, field2)
          ∧ List.Sorted (· < ·) lon2
          ∧ ∀ x ∈ lon2, -180 ≤ x ∧ x ≤ 180 := by
  have hΔ : ∀ i, i < ([0, 90, 180, 270] : List ℚ).length - 1 →
      ([0, 90, 180, 270] : List ℚ).getD (i+1) 0
        = ([0, 90, 180, 270] : List ℚ).getD i 0 + 90 := by
    intro i hi
    simp only [List.length_cons, List.length_nil] at hi
    interval_cases i <;> norm_num [List.getD]
  have hr6 : round6 (90 : ℚ) ≠ 0 := by
    norm_num [round6, roundHalfEven]
  exact ⟨⟨by norm_num, hΔ, by norm_num, by norm_num, hr6⟩,
    to_minus180_180_output_strictMono_bounded _ [[1, 2, 3, 4]] 90
      (by norm_num) hΔ (by norm_num) (by norm_num) hr6⟩

/-- The column-source map induced by `to_minus180_180` on an axis: output
column `j` of any co-rolled field is taken from this input column.  It
depends only on the axis. -/
def colSource (lon : List ℚ) : ℕ → ℕ :=
  if canonical180 lon ∨ lon.length < 2 then id
  else fun j =>
    let dlon := round6 (lon.getD 1 0 - lon.getD 0 0)
    let s : ℤ := (roundHalfEven ((-180 - lon.getD 0 0) / dlon)) % (lon.length : ℤ)
    let W := lon.map (fun x => wrap180 (x + (s : ℚ) * dlon))
    (((((argsort W).getD j 0 : ℕ) : ℤ) - s) % (lon.length : ℤ)).toNat

/-- `colSource` always lands inside the axis. -/
theorem colSource_lt (lon : List ℚ) (j : ℕ) (hj : j < lon.length) :
    colSource lon j < lon.length := by
  unfold colSource
  split_ifs with h
  · exact hj
  · dsimp only
    have hn : (0:ℤ) < (lon.length : ℤ) := by
      push_neg at h
      omega
    have hmod := Int.emod_lt_of_pos
      ((((argsort (lon.map (fun x => wrap180 (x +
        ((((roundHalfEven ((-180 - lon.getD 0 0) /
          round6 (lon.getD 1 0 - lon.getD 0 0))) % (lon.length : ℤ)) : ℤ) : ℚ) *
          round6 (lon.getD 1 0 - lon.getD 0 0))))).getD j 0 : ℕ) : ℤ) -
        (roundHalfEven ((-180 - lon.getD 0 0) /
          round6 (lon.getD 1 0 - lon.getD 0 0))) % (lon.length : ℤ)) hn
    omega

/-- Whenever the script-level normalizer succeeds, every output cell in a
row comes from the input column designated by `colSource` of the axis. -/
theorem tom_script_cols (lon : List ℚ) (f : List (List ℚ))
    (hf : ∀ row ∈ f, row.length = lon.length)
    (rf : List ℚ × List (List ℚ))
    (h : to_minus180_180_script lon f = some rf) :
    ∀ r j, j < lon.length →
      (rf.2.getD r []).getD j 0 = (f.getD r []).getD (colSource lon j) 0 := by
  by_cases h1 : lon.length < 2
  · unfold to_minus180_180_script at h
    rw [if_pos h1] at h
    injection h with h'
    subst h'
    intro r j hj
    unfold colSource
    rw [if_pos (Or.inr h1)]
    rfl
  · by_cases h2 : canonical180 lon = true
    · unfold to_minus180_180_script tom180core at h
      rw [if_neg h1] at h
      simp only [h2, if_true] at h
      injection h with h'
      subst h'
      intro r j hj
      unfold colSource
      rw [if_pos (Or.inl h2)]
      rfl
    · by_cases h3 : round6 (lon.getD 1 0 - lon.getD 0 0) = 0
      · exfalso
        unfold to_minus180_180_script tom180core at h
        rw [if_neg h1] at h
        simp only [h2, if_false, h3, if_true, Bool.false_eq_true] at h
        exact Option.noConfusion h
      · set s : ℤ := (roundHalfEven ((-180 - lon.getD 0 0) /
          round6 (lon.getD 1 0 - lon.getD 0 0))) % (lon.length : ℤ) with hs
        set W := lon.map (fun x =>
          wrap180 (x + (s : ℚ) * round6 (lon.getD 1 0 - lon.getD 0 0))) with hW
        set F := (f.map (fun row => (List.range row.length).map (fun j =>
            row.getD ((((j : ℤ) - s) % (row.length : ℤ))).toNat 0))).map
            (fun row => (argsort W).map (fun i => row.getD i 0)) with hF
        have heval : to_minus180_180_script lon f
            = some ((argsort W).map (fun i => W.getD i 0), F) := by
          unfold to_minus180_180_script tom180core
          rw [if_neg h1]
          dsimp only
          rw [if_neg h2, if_neg h3]
        rw [heval] at h
        injection h with h'
        subst h'
        intro r j hj
        have hcs : colSource lon j
            = (((((argsort W).getD j 0 : ℕ) : ℤ) - s) % (lon.length : ℤ)).toNat := by
          unfold colSource
          rw [if_neg (by push_neg; exact ⟨h2, by omega⟩)]
        have hlenW : W.length = lon.length := by
          rw [hW, List.length_map]
        have hjA : j < (argsort W).length := by
          rw [argsort_length, hlenW]
          exact hj
        by_cases hr : r < f.length
        · have hrowlen : f[r].length = lon.length :=
            hf _ (List.getElem_mem hr)
          have hoj : (argsort W)[j] < lon.length := by
            have hmem : (argsort W)[j] ∈ argsort W := List.getElem_mem hjA
            have := argsort_mem_lt W hmem
            omega
          have hFr : F.getD r []
              = (argsort W).map (fun i =>
                  ((List.range f[r].length).map (fun j' : ℕ =>
                    f[r].getD ((((j' : ℤ) - s) % ((f[r].length : ℕ) : ℤ))).toNat 0)).getD i 0) := by
            rw [hF, List.getD_eq_getElem _ [] (by simpa using hr),
              List.getElem_map, List.getElem_map]
          rw [hFr]
          rw [List.getD_eq_getElem _ 0 (by simpa using hjA), List.getElem_map]
          rw [List.getD_eq_getElem _ 0
            (by simpa [hrowlen] using hoj), List.getElem_map, List.getElem_range]
          rw [List.getD_eq_getElem f [] hr]
          rw [hcs, List.getD_eq_getElem _ 0 hjA]
          rw [hrowlen]
        · have hrF : F.length ≤ r := by
            rw [hF]
            simpa using (by omega : f.length ≤ r)
          rw [List.getD_eq_default F [] hrF,
            List.getD_eq_default f [] (by omega)]
          rfl

/-- C2 (confirmed).  Normalizing two same-shape fields against the same
longitude axis yields the identical output axis, and a single column-source
map `σ` (a function of the axis alone) such that output column `j` of both
fields is input column `σ j`. -/
theorem to_minus180_180_shared_permutation (lon : List ℚ)
    (f g : List (List ℚ))
    (hf : ∀ row ∈ f, row.length = lon.length)
    (hg : ∀ row ∈ g, row.length = lon.length) :
    (to_minus180_180_script lon f).map Prod.fst
        = (to_minus180_180_script lon g).map Prod.fst
    ∧ ∀ rf rg, to_minus180_180_script lon f = some rf →
        to_minus180_180_script lon g = some rg →
        ∃ σ : ℕ → ℕ, (∀ j, j < lon.length → σ j < lon.length)
          ∧ ∀ r j, j < lon.length →
              (rf.2.getD r []).getD j 0 = (f.getD r []).getD (σ j) 0
                ∧ (rg.2.getD r []).getD j 0 = (g.getD r []).getD (σ j) 0 := by
  constructor
  · have hcore : (tom180core lon f).map Prod.fst
        = (tom180core lon g).map Prod.fst := by
      unfold tom180core
      dsimp only
      by_cases h2 : canonical180 lon = true
      · rw [if_pos h2, if_pos h2]
        rfl
      · rw [if_neg h2, if_neg h2]
        by_cases h3 : round6 (lon.getD 1 0 - lon.getD 0 0) = 0
        · rw [if_pos h3, if_pos h3]
        · rw [if_neg h3, if_neg h3]
          rfl
    unfold to_minus180_180_script
    by_cases h1 : lon.length < 2
    · rw [if_pos h1, if_pos h1]
      rfl
    · rw [if_neg h1, if_neg h1]
      exact hcore
  · intro rf rg hrf hrg
    exact ⟨colSource lon, fun j hj => colSource_lt lon j hj, fun r j hj =>
      ⟨tom_script_cols lon f hf rf hrf r j hj,
        tom_script_cols lon g hg rg hrg r j hj⟩⟩

/-- Witness for C2: two 1×4 fields on the axis `[0, 90, 180, 270]`. -/
theorem to_minus180_180_shared_permutation_witness :
    ((∀ row ∈ ([[1, 2, 3, 4]] : List (List ℚ)),
        row.length = ([0, 90, 180, 270] : List ℚ).length)
      ∧ (∀ row ∈ ([[5, 6, 7, 8]] : List (List ℚ)),
          row.length = ([0, 90, 180, 270] : List ℚ).length)
      ∧ to_minus180_180_script [0, 90, 180, 270] [[1, 2, 3, 4]]
          = some ([-180, -90, 0, 90], [[3, 4, 1, 2]])
      ∧ to_minus180_180_script [0, 90, 180, 270] [[5, 6, 7, 8]]
          = some ([-180, -90, 0, 90], [[7, 8, 5, 6]]))
    ∧ ∃ σ : ℕ → ℕ,
        (∀ j, j < ([0, 90, 180, 270] : List ℚ).length →
          σ j < ([0, 90, 180, 270] : List ℚ).length)
        ∧ ∀ r j, j < ([0, 90, 180, 270] : List ℚ).length →
            ((([-180, -90, 0, 90], [[3, 4, 1, 2]]) :
                List ℚ × List (List ℚ)).2.getD r []).getD j 0
              = (([[1, 2, 3, 4]] : List (List ℚ)).getD r []).getD (σ j) 0
            ∧ ((([-180, -90, 0, 90], [[7, 8, 5, 6]]) :
                List ℚ × List (List ℚ)).2.getD r []).getD j 0
              = (([[5, 6, 7, 8]] : List (List ℚ)).getD r []).getD (σ j) 0 := by
  have hf : ∀ row ∈ ([[1, 2, 3, 4]] : List (List ℚ)),
      row.length = ([0, 90, 180, 270] : List ℚ).length := by
    intro row hr
    fin_cases hr <;> simp
  have hg : ∀ row ∈ ([[5, 6, 7, 8]] : List (List ℚ)),
      row.length = ([0, 90, 180, 270] : List ℚ).length := by
    intro row hr
    fin_cases hr <;> simp
  have hrf : to_minus180_180_script [0, 90, 180, 270] [[1, 2, 3, 4]]
      = some ([-180, -90, 0, 90], [[3, 4, 1, 2]]) := by
    norm_num [to_minus180_180_script, tom180core, canonical180, round6,
      roundHalfEven, wrap180, qmod, argsort, keyRel, List.insertionSort,
      List.orderedInsert, List.getD]
    decide
  have hrg : to_minus180_180_script [0, 90, 180, 270] [[5, 6, 7, 8]]
      = some ([-180, -90, 0, 90], [[7, 8, 5, 6]]) := by
    norm_num [to_minus180_180_script, tom180core, canonical180, round6,
      roundHalfEven, wrap180, qmod, argsort, keyRel, List.insertionSort,
      List.orderedInsert, List.getD]
    decide
  exact ⟨⟨hf, hg, hrf, hrg⟩,
    (to_minus180_180_shared_permutation [0, 90, 180, 270]
      [[1, 2, 3, 4]] [[5, 6, 7, 8]] hf hg).2 _ _ hrf hrg⟩

/-! ## The timestamp parser `parse_datehour` (src/backend/app.py lines
115-146)

The Python code delegates to `datetime.strptime` with the five format
strings `"%Y%m%d%H"`, `"%Y%m%d%H%M"`, `"%Y-%m-%dT%H"`, `"%Y-%m-%d %H"`,
`"%Y-%m-%dT%H:%M"`, `"%Y-%m-%d %H:%M"`.  CPython's `_strptime` compiles a
format into a regex with `%Y ↦ \d{4}`, `%m ↦ (1[0-2]|0[1-9]|[1-9])`,
`%d ↦ (3[01]|[12]\d|0[1-9]|[1-9])`, `%H ↦ (2[0-3]|[0-1]\d|\d)`,
`%M ↦ ([0-5]\d|\d)`, replaces literal whitespace by `\s+`, compiles with
`IGNORECASE` (so the literal `T` also matches `t`) and requires the whole
string to be consumed; `datetime()` then validates the calendar fields
(year 1-9999, day against the month length).  Because every field is 1-2
digits delimited by a non-digit (or the end), the regex acceptance is
equivalent to: split off the maximal digit run, require its length in
{1, 2} and its value in the field's range — which is how the embedding
below parses.  Strings are ASCII-modelled (Python's unicode digits and
exotic whitespace are out of scope). -/

/-- Python `str.strip()` whitespace (ASCII): space, tab, LF, CR, VT, FF. -/
def pyWhitespace (c : Char) : Bool :=
  c == ' ' || c == '\t' || c == '\n' || c == '\r' || c == '\x0b' || c == '\x0c'

/-- `value.strip()`. -/
def pyStrip (cs : List Char) : List Char :=
  ((cs.dropWhile pyWhitespace).reverse.dropWhile pyWhitespace).reverse

/-- `v.rstrip("Z")`: removes every trailing `'Z'`. -/
def pyRstripZ (cs : List Char) : List Char :=
  (cs.reverse.dropWhile (fun c => c == 'Z')).reverse

/-- Numeric value of a digit string (as `int()` of the matched group). -/
def digitsToNat (cs : List Char) : ℕ :=
  cs.foldl (fun acc c => 10 * acc + (c.toNat - 48)) 0

/-- The result of a successful parse (year, month, day, hour, minute). -/
structure PyDateTime where
  year : ℕ
  month : ℕ
  day : ℕ
  hour : ℕ
  minute : ℕ
deriving DecidableEq

/-- Gregorian leap year, as implemented by `datetime`. -/
def isLeapYear (y : ℕ) : Bool :=
  y % 4 == 0 && (y % 100 != 0 || y % 400 == 0)

/-- Days in a month, as validated by the `datetime` constructor. -/
def daysInMonth (y m : ℕ) : ℕ :=
  if m = 2 then (if isLeapYear y then 29 else 28)
  else if m = 4 ∨ m = 6 ∨ m = 9 ∨ m = 11 then 30 else 31

/-- The field ranges accepted by `datetime(year, month, day, hour, minute)`. -/
def ValidYMDHM (y mo d h mi : ℕ) : Prop :=
  1 ≤ y ∧ y ≤ 9999 ∧ 1 ≤ mo ∧ mo ≤ 12 ∧ 1 ≤ d ∧ d ≤ daysInMonth y mo
    ∧ h ≤ 23 ∧ mi ≤ 59

instance (y mo d h mi : ℕ) : Decidable (ValidYMDHM y mo d h mi) := by
  unfold ValidYMDHM
  infer_instance

/-- The `datetime(...)` constructor: raises (`none`) on invalid fields. -/
def mkDateTime (y mo d h mi : ℕ) : Option PyDateTime :=
  if ValidYMDHM y mo d h mi then some ⟨y, mo, d, h, mi⟩ else none

/-- A maximal digit run of length 1-2 whose value is within `[lo, hi]` —
the acceptance condition of the 1-2-digit field regexes. -/
def digitRunOK (run : List Char) (lo hi : ℕ) : Bool :=
  decide (1 ≤ run.length) && decide (run.length ≤ 2)
    && decide (lo ≤ digitsToNat run) && decide (digitsToNat run ≤ hi)

/-- `strptime(v, "%Y%m%d%H")` on a 10-character digit string: the regex
forces the 4+2+2+2 split, and the two-digit month/day/hour alternations
accept exactly the value ranges `[1,12]`, `[1,31]`, `[0,23]`. -/
def strptime_YmdH (cs : List Char) : Option PyDateTime :=
  match cs with
  | [y1, y2, y3, y4, m1, m2, d1, d2, h1, h2] =>
    if [y1, y2, y3, y4, m1, m2, d1, d2, h1, h2].all Char.isDigit then
      let y := digitsToNat [y1, y2, y3, y4]
      let mo := digitsToNat [m1, m2]
      let d := digitsToNat [d1, d2]
      let h := digitsToNat [h1, h2]
      if 1 ≤ mo ∧ mo ≤ 12 ∧ 1 ≤ d ∧ d ≤ 31 ∧ h ≤ 23 then
        mkDateTime y mo d h 0
      else none
    else none
  | _ => none

/-- `strptime(v, "%Y%m%d%H%M")` on a 12-character digit string. -/
def strptime_YmdHM (cs : List Char) : Option PyDateTime :=
  match cs with
  | [y1, y2, y3, y4, m1, m2, d1, d2, h1, h2, n1, n2] =>
    if [y1, y2, y3, y4, m1, m2, d1, d2, h1, h2, n1, n2].all Char.isDigit then
      let y := digitsToNat [y1, y2, y3, y4]
      let mo := digitsToNat [m1, m2]
      let d := digitsToNat [d1, d2]
      let h := digitsToNat [h1, h2]
      let mi := digitsToNat [n1, n2]
      if 1 ≤ mo ∧ mo ≤ 12 ∧ 1 ≤ d ∧ d ≤ 31 ∧ h ≤ 23 ∧ mi ≤ 59 then
        mkDateTime y mo d h mi
      else none
    else none
  | _ => none

/-- The date/hour separator: the literal `T` (or `t`, by IGNORECASE) for
the `T` formats, one or more whitespace characters (`\s+`) for the
space formats.  Returns the remainder after the separator. -/
def parseSep : Bool → List Char → Option (List Char)
  | true, cs =>
    if (cs.takeWhile pyWhitespace).isEmpty then none
    else some (cs.dropWhile pyWhitespace)
  | false, c :: rest => if c == 'T' || c == 't' then some rest else none
  | false, [] => none

/-- The `%H` field and, for the minute formats, `:%M`, which must consume
the rest of the string; returns `(hour, minute)`. -/
def parseHourTail (withMin : Bool) (cs : List Char) : Option (ℕ × ℕ) :=
  let hrun := cs.takeWhile Char.isDigit
  let rest := cs.dropWhile Char.isDigit
  if digitRunOK hrun 0 23 then
    if withMin then
      match rest with
      | c :: rest2 =>
        if c == ':' then
          let minrun := rest2.takeWhile Char.isDigit
          if (rest2.dropWhile Char.isDigit).isEmpty && digitRunOK minrun 0 59 then
            some (digitsToNat hrun, digitsToNat minrun)
          else none
        else none
      | [] => none
    else
      if rest.isEmpty then some (digitsToNat hrun, 0) else none
  else none

/-- `strptime` for the four ISO-like formats: `%Y-%m-%d`, then separator,
then hour (and optionally `:%M`), full consumption. -/
def strptime_iso (sepSpace withMin : Bool) (cs : List Char) : Option PyDateTime :=
  match cs with
  | y1 :: y2 :: y3 :: y4 :: c5 :: rest =>
    if y1.isDigit && y2.isDigit && y3.isDigit && y4.isDigit && c5 == '-' then
      let mrun := rest.takeWhile Char.isDigit
      match rest.dropWhile Char.isDigit with
      | c6 :: rest2 =>
        if c6 == '-' then
          let drun := rest2.takeWhile Char.isDigit
          match parseSep sepSpace (rest2.dropWhile Char.isDigit) with
          | some rest4 =>
            match parseHourTail withMin rest4 with
            | some (h, mi) =>
              if digitRunOK mrun 1 12 && digitRunOK drun 1 31 then
                mkDateTime (digitsToNat [y1, y2, y3, y4]) (digitsToNat mrun)
                  (digitsToNat drun) h mi
              else none
            | none => none
          | none => none
        else none
      | [] => none
    else none
  | _ => none

/-- `parse_datehour` (src/backend/app.py lines 115-146): strip, digit
forms for lengths 10 and 12 (exceptions propagate, `none`), otherwise
`rstrip("Z")` and the four ISO formats tried in order.  `none` models the
final `raise ValueError`. -/
def parse_datehour (s : String) : Option PyDateTime :=
  let v := pyStrip s.data
  if v.all Char.isDigit && !v.isEmpty then
    if v.length = 10 then strptime_YmdH v
    else if v.length = 12 then strptime_YmdHM v
    else
      let iso := pyRstripZ v
      strptime_iso false false iso <|> strptime_iso true false iso
        <|> strptime_iso false true iso <|> strptime_iso true true iso
  else
    let iso := pyRstripZ v
    strptime_iso false false iso <|> strptime_iso true false iso
      <|> strptime_iso false true iso <|> strptime_iso true true iso

/-- A 1-2 character digit field whose value lies in `[lo, hi]`. -/
def DigitRun (run : List Char) (lo hi : ℕ) : Prop :=
  run ≠ [] ∧ run.length ≤ 2 ∧ (∀ c ∈ run, c.isDigit = true)
    ∧ lo ≤ digitsToNat run ∧ digitsToNat run ≤ hi

/-- The date/hour separator token of the amended claim: `"T"` or `"t"` for
the `T` formats, a non-empty whitespace run for the space formats. -/
def SepToken : Bool → List Char → Prop
  | true, sep => sep ≠ [] ∧ ∀ c ∈ sep, pyWhitespace c = true
  | false, sep => sep = ['T'] ∨ sep = ['t']

/-- The amended claim's ISO-like form: a 4-digit year, `-`, a 1-2-digit
month, `-`, a 1-2-digit day, a separator, a 1-2-digit hour and (for the
minute formats) `:` plus a 1-2-digit minute, with the fields forming a
valid calendar date-hour. -/
def IsoShape (sepSpace withMin : Bool) (w : List Char) : Prop :=
  ∃ ys ms ds sep hs tail : List Char,
    w = ys ++ '-' :: (ms ++ '-' :: (ds ++ (sep ++ (hs ++ tail))))
    ∧ ys.length = 4 ∧ (∀ c ∈ ys, c.isDigit = true)
    ∧ DigitRun ms 1 12 ∧ DigitRun ds 1 31 ∧ SepToken sepSpace sep
    ∧ DigitRun hs 0 23
    ∧ (if withMin then
        ∃ mins, tail = ':' :: mins ∧ DigitRun mins 0 59
          ∧ ValidYMDHM (digitsToNat ys) (digitsToNat ms) (digitsToNat ds)
              (digitsToNat hs) (digitsToNat mins)
      else tail = []
          ∧ ValidYMDHM (digitsToNat ys) (digitsToNat ms) (digitsToNat ds)
              (digitsToNat hs) 0)

/-- The amended claim's acceptance condition: after stripping surrounding
whitespace, either a 10- or 12-digit string whose 4+2+2+2(+2) fields form a
valid date-hour(-minute), or — when the digit branch does not apply —
after removing any number of trailing `Z`s, one of the four ISO-like
shapes. -/
def AcceptedTimestamp (s : String) : Prop :=
  let v := pyStrip s.data
  ((∀ c ∈ v, c.isDigit = true) ∧ v ≠ [] ∧ v.length = 10
      ∧ ValidYMDHM (digitsToNat (v.take 4)) (digitsToNat ((v.drop 4).take 2))
          (digitsToNat ((v.drop 6).take 2)) (digitsToNat (v.drop 8)) 0)
  ∨ ((∀ c ∈ v, c.isDigit = true) ∧ v ≠ [] ∧ v.length = 12
      ∧ ValidYMDHM (digitsToNat (v.take 4)) (digitsToNat ((v.drop 4).take 2))
          (digitsToNat ((v.drop 6).take 2)) (digitsToNat ((v.drop 8).take 2))
          (digitsToNat (v.drop 10)))
  ∨ (¬((∀ c ∈ v, c.isDigit = true) ∧ v ≠ [] ∧ (v.length = 10 ∨ v.length = 12))
      ∧ (IsoShape false false (pyRstripZ v) ∨ IsoShape true false (pyRstripZ v)
          ∨ IsoShape false true (pyRstripZ v) ∨ IsoShape true true (pyRstripZ v)))

/-! ### Helper lemmas for the parser proofs -/

theorem takeWhile_append_cons {p : Char → Bool} (run : List Char) (c : Char)
    (r : List Char) (hrun : ∀ x ∈ run, p x = true) (hc : p c = false) :
    (run ++ c :: r).takeWhile p = run ∧ (run ++ c :: r).dropWhile p = c :: r := by
  induction run with
  | nil => simp [List.takeWhile_cons, List.dropWhile_cons, hc]
  | cons a t ih =>
    have ha : p a = true := hrun a (by simp)
    have ih' := ih (fun x hx => hrun x (by simp [hx]))
    simp [List.takeWhile_cons, List.dropWhile_cons, ha, ih'.1, ih'.2]

theorem takeWhile_all {p : Char → Bool} (run : List Char)
    (hrun : ∀ x ∈ run, p x = true) :
    run.takeWhile p = run ∧ run.dropWhile p = [] := by
  induction run with
  | nil => simp
  | cons a t ih =>
    have ha : p a = true := hrun a (by simp)
    have ih' := ih (fun x hx => hrun x (by simp [hx]))
    simp [List.takeWhile_cons, List.dropWhile_cons, ha, ih'.1, ih'.2]

theorem mkDateTime_isSome (y mo d h mi : ℕ) :
    (mkDateTime y mo d h mi).isSome = true ↔ ValidYMDHM y mo d h mi := by
  unfold mkDateTime
  split_ifs with hv <;> simp [hv]

theorem orElse_isSome (a b : Option PyDateTime) :
    (a <|> b).isSome = (a.isSome || b.isSome) := by
  cases a <;> rfl

theorem ws_not_digit {c : Char} (h : pyWhitespace c = true) :
    c.isDigit = false := by
  simp only [pyWhitespace, Bool.or_eq_true, beq_iff_eq] at h
  rcases h with ((((rfl | rfl) | rfl) | rfl) | rfl) | rfl <;> decide

theorem digit_not_ws {c : Char} (h : c.isDigit = true) :
    pyWhitespace c = false := by
  cases hw : pyWhitespace c
  · rfl
  · rw [ws_not_digit hw] at h
    exact absurd h (by simp)

theorem digitRunOK_of {run : List Char} {lo hi : ℕ} (h : DigitRun run lo hi) :
    digitRunOK run lo hi = true := by
  obtain ⟨h1, h2, _, h4, h5⟩ := h
  have hlen : 1 ≤ run.length := List.length_pos.mpr h1
  simp [digitRunOK, h2, h4, h5, hlen]

theorem digitRun_of_OK {run : List Char} {lo hi : ℕ}
    (hd : ∀ c ∈ run, c.isDigit = true) (h : digitRunOK run lo hi = true) :
    DigitRun run lo hi := by
  simp only [digitRunOK, Bool.and_eq_true, decide_eq_true_eq] at h
  exact ⟨List.length_pos.mp h.1.1.1, h.1.1.2, hd, h.1.2, h.2⟩

theorem parseSep_some {sepSpace : Bool} {cs rest4 : List Char}
    (h : parseSep sepSpace cs = some rest4) :
    ∃ sep, cs = sep ++ rest4 ∧ SepToken sepSpace sep := by
  cases sepSpace
  · rcases cs with _ | ⟨c, rest⟩
    · exact absurd h (by simp [parseSep])
    · by_cases hc : (c == 'T' || c == 't') = true
      · simp only [parseSep] at h
        rw [if_pos hc] at h
        injection h with h'
        subst h'
        refine ⟨[c], rfl, ?_⟩
        simp only [Bool.or_eq_true, beq_iff_eq] at hc
        rcases hc with rfl | rfl
        · exact Or.inl rfl
        · exact Or.inr rfl
      · simp only [parseSep] at h
        rw [if_neg hc] at h
        exact absurd h (by simp)
  · simp only [parseSep] at h
    by_cases he : (cs.takeWhile pyWhitespace).isEmpty = true
    · rw [if_pos he] at h
      exact absurd h (by simp)
    · rw [if_neg he] at h
      injection h with h'
      subst h'
      refine ⟨cs.takeWhile pyWhitespace,
        (List.takeWhile_append_dropWhile pyWhitespace cs).symm, ?_, ?_⟩
      · intro hnil
        exact he (by simp [hnil])
      · exact fun c hc => List.mem_takeWhile_imp hc

theorem parseSep_of_shape (sepSpace : Bool) (sep hs tail : List Char)
    (hsep : SepToken sepSpace sep) (hhd : ∀ c ∈ hs, c.isDigit = true)
    (hne : hs ≠ []) :
    parseSep sepSpace (sep ++ (hs ++ tail)) = some (hs ++ tail) := by
  cases sepSpace
  · rcases hsep with rfl | rfl <;> simp [parseSep]
  · obtain ⟨hne', hws⟩ := hsep
    rcases hs with _ | ⟨hc, hrest⟩
    · exact absurd rfl hne
    rcases sep with _ | ⟨sc, srest⟩
    · exact absurd rfl hne'
    have h1 := takeWhile_append_cons (sc :: srest) hc (hrest ++ tail)
      (fun x hx => hws x hx) (digit_not_ws (hhd hc (by simp)))
    simp only [parseSep]
    rw [show (sc :: srest) ++ ((hc :: hrest) ++ tail)
        = (sc :: srest) ++ hc :: (hrest ++ tail) by simp]
    rw [h1.1, h1.2]
    simp


theorem parseHourTail_some {withMin : Bool} {cs : List Char} {hh mi : ℕ}
    (h : parseHourTail withMin cs = some (hh, mi)) :
    ∃ hs tail, cs = hs ++ tail ∧ DigitRun hs 0 23 ∧ hh = digitsToNat hs
      ∧ (if withMin then
          ∃ mins, tail = ':' :: mins ∧ DigitRun mins 0 59 ∧ mi = digitsToNat mins
        else tail = [] ∧ mi = 0) := by
  unfold parseHourTail at h
  by_cases hok : digitRunOK (cs.takeWhile Char.isDigit) 0 23 = true
  swap
  · rw [if_neg hok] at h
    exact absurd h (by simp)
  rw [if_pos hok] at h
  have hdig : ∀ c ∈ cs.takeWhile Char.isDigit, c.isDigit = true :=
    fun c hc => List.mem_takeWhile_imp hc
  have hrunOK : DigitRun (cs.takeWhile Char.isDigit) 0 23 :=
    digitRun_of_OK hdig hok
  cases withMin
  · rw [if_neg Bool.false_ne_true] at h
    by_cases hemp : (cs.dropWhile Char.isDigit).isEmpty = true
    swap
    · rw [if_neg hemp] at h
      exact absurd h (by simp)
    rw [if_pos hemp] at h
    injection h with h'
    have h1 := congrArg Prod.fst h'
    have h2 := congrArg Prod.snd h'
    simp only at h1 h2
    have hdrop : cs.dropWhile Char.isDigit = [] := by
      simpa using hemp
    refine ⟨cs.takeWhile Char.isDigit, [], ?_, hrunOK, h1.symm, ?_⟩
    · rw [← hdrop, List.takeWhile_append_dropWhile]
    · rw [if_neg Bool.false_ne_true]
      exact ⟨rfl, h2.symm⟩
  · rw [if_pos rfl] at h
    rcases hrest : cs.dropWhile Char.isDigit with _ | ⟨c, rest2⟩
    · rw [hrest] at h
      exact absurd h (by simp)
    rw [hrest] at h
    dsimp only at h
    by_cases hc : (c == ':') = true
    swap
    · rw [if_neg hc] at h
      exact absurd h (by simp)
    rw [if_pos hc] at h
    have hc' : c = ':' := by simpa using hc
    subst hc'
    by_cases hcond : ((rest2.dropWhile Char.isDigit).isEmpty
        && digitRunOK (rest2.takeWhile Char.isDigit) 0 59) = true
    swap
    · rw [if_neg hcond] at h
      exact absurd h (by simp)
    rw [if_pos hcond] at h
    simp only [Bool.and_eq_true] at hcond
    obtain ⟨hemp2, hok2⟩ := hcond
    injection h with h'
    have h1 := congrArg Prod.fst h'
    have h2 := congrArg Prod.snd h'
    simp only at h1 h2
    have hdrop2 : rest2.dropWhile Char.isDigit = [] := by
      simpa using hemp2
    have hrest2eq : rest2.takeWhile Char.isDigit = rest2 := by
      conv_rhs => rw [← List.takeWhile_append_dropWhile (p := Char.isDigit) (l := rest2)]
      rw [hdrop2, List.append_nil]
    refine ⟨cs.takeWhile Char.isDigit, ':' :: rest2, ?_, hrunOK, h1.symm, ?_⟩
    · rw [← hrest, List.takeWhile_append_dropWhile]
    · rw [if_pos rfl]
      refine ⟨rest2, rfl, ?_, ?_⟩
      · have hdr := digitRun_of_OK (fun c hc => List.mem_takeWhile_imp hc) hok2
        rwa [hrest2eq] at hdr
      · rw [← h2, hrest2eq]

theorem parseHourTail_of_shape_noMin {hs : List Char} (hhs : DigitRun hs 0 23) :
    parseHourTail false hs = some (digitsToNat hs, 0) := by
  have hall := takeWhile_all hs hhs.2.2.1
  unfold parseHourTail
  rw [hall.1, hall.2, if_pos (digitRunOK_of hhs)]
  simp

theorem parseHourTail_of_shape_min {hs mins : List Char}
    (hhs : DigitRun hs 0 23) (hmins : DigitRun mins 0 59) :
    parseHourTail true (hs ++ (':' :: mins))
      = some (digitsToNat hs, digitsToNat mins) := by
  have hsplit := takeWhile_append_cons hs ':' mins hhs.2.2.1 (by decide)
  have hall := takeWhile_all mins hmins.2.2.1
  unfold parseHourTail
  rw [hsplit.1, hsplit.2, if_pos (digitRunOK_of hhs)]
  simp [hall.1, hall.2, digitRunOK_of hmins]

theorem sep_head_not_digit {sepSpace : Bool} {sep : List Char}
    (h : SepToken sepSpace sep) :
    ∃ s0 srest, sep = s0 :: srest ∧ s0.isDigit = false := by
  cases sepSpace
  · rcases h with rfl | rfl
    · exact ⟨'T', [], rfl, by decide⟩
    · exact ⟨'t', [], rfl, by decide⟩
  · obtain ⟨hne, hws⟩ := h
    rcases sep with _ | ⟨s0, srest⟩
    · exact absurd rfl hne
    · exact ⟨s0, srest, rfl, ws_not_digit (hws s0 (by simp))⟩

/-- The ISO-format `strptime` succeeds exactly on the corresponding
decomposition shape. -/
theorem strptime_iso_isSome (sepSpace withMin : Bool) (w : List Char) :
    (strptime_iso sepSpace withMin w).isSome = true
      ↔ IsoShape sepSpace withMin w := by
  constructor
  · intro h
    rcases w with _ | ⟨y1, w1⟩
    · exact absurd h (by simp [strptime_iso])
    rcases w1 with _ | ⟨y2, w2⟩
    · exact absurd h (by simp [strptime_iso])
    rcases w2 with _ | ⟨y3, w3⟩
    · exact absurd h (by simp [strptime_iso])
    rcases w3 with _ | ⟨y4, w4⟩
    · exact absurd h (by simp [strptime_iso])
    rcases w4 with _ | ⟨c5, rest⟩
    · exact absurd h (by simp [strptime_iso])
    simp only [strptime_iso] at h
    by_cases hy : (y1.isDigit && y2.isDigit && y3.isDigit && y4.isDigit
        && (c5 == '-')) = true
    swap
    · rw [if_neg hy] at h
      exact absurd h (by simp)
    rw [if_pos hy] at h
    simp only [Bool.and_eq_true, beq_iff_eq] at hy
    obtain ⟨⟨⟨⟨hdy1, hdy2⟩, hdy3⟩, hdy4⟩, hc5⟩ := hy
    subst hc5
    rcases hdw : rest.dropWhile Char.isDigit with _ | ⟨c6, rest2⟩
    · rw [hdw] at h
      exact absurd h (by simp)
    rw [hdw] at h
    dsimp only at h
    by_cases hc6 : (c6 == '-') = true
    swap
    · rw [if_neg hc6] at h
      exact absurd h (by simp)
    rw [if_pos hc6] at h
    have hc6' : c6 = '-' := by simpa using hc6
    subst hc6'
    rcases hsep : parseSep sepSpace (rest2.dropWhile Char.isDigit) with _ | rest4
    · rw [hsep] at h
      exact absurd h (by simp)
    rw [hsep] at h
    dsimp only at h
    rcases hht : parseHourTail withMin rest4 with _ | ⟨hh, mi⟩
    · rw [hht] at h
      exact absurd h (by simp)
    rw [hht] at h
    dsimp only at h
    by_cases hmd : (digitRunOK (rest.takeWhile Char.isDigit) 1 12
        && digitRunOK (rest2.takeWhile Char.isDigit) 1 31) = true
    swap
    · rw [if_neg hmd] at h
      exact absurd h (by simp)
    rw [if_pos hmd] at h
    simp only [Bool.and_eq_true] at hmd
    obtain ⟨hmok, hdok⟩ := hmd
    rw [mkDateTime_isSome] at h
    obtain ⟨sep, hseq, hsetok⟩ := parseSep_some hsep
    obtain ⟨hs, tail, hr4, hhsrun, hhval, htail⟩ := parseHourTail_some hht
    subst hr4
    refine ⟨[y1, y2, y3, y4], rest.takeWhile Char.isDigit,
      rest2.takeWhile Char.isDigit, sep, hs, tail, ?_, rfl, ?_, ?_, ?_,
      hsetok, hhsrun, ?_⟩
    · have hr : rest = rest.takeWhile Char.isDigit ++ ('-' :: rest2) := by
        conv_lhs => rw [← List.takeWhile_append_dropWhile Char.isDigit rest]
        rw [hdw]
      have hr2 : rest2 = rest2.takeWhile Char.isDigit ++ (sep ++ (hs ++ tail)) := by
        conv_lhs => rw [← List.takeWhile_append_dropWhile Char.isDigit rest2]
        rw [hseq]
      conv_lhs => rw [hr, hr2]
      simp
    · intro c hc
      simp only [List.mem_cons, List.not_mem_nil, or_false] at hc
      rcases hc with rfl | rfl | rfl | rfl <;> assumption
    · exact digitRun_of_OK (fun c hc => List.mem_takeWhile_imp hc) hmok
    · exact digitRun_of_OK (fun c hc => List.mem_takeWhile_imp hc) hdok
    · cases withMin
      · rw [if_neg Bool.false_ne_true] at htail ⊢
        obtain ⟨rfl, rfl⟩ := htail
        rw [hhval] at h
        exact ⟨rfl, h⟩
      · rw [if_pos rfl] at htail ⊢
        obtain ⟨mins, rfl, hminrun, rfl⟩ := htail
        rw [hhval] at h
        exact ⟨mins, rfl, hminrun, h⟩
  · intro hshape
    obtain ⟨ys, ms, ds, sep, hs, tail, heqw, hys4, hysdig, hms, hds, hsep,
      hhs, htail⟩ := hshape
    rcases ys with _ | ⟨a1, ys⟩
    · simp at hys4
    rcases ys with _ | ⟨a2, ys⟩
    · simp at hys4
    rcases ys with _ | ⟨a3, ys⟩
    · simp at hys4
    rcases ys with _ | ⟨a4, ys⟩
    · simp at hys4
    rcases ys with _ | ⟨a5, ys⟩
    swap
    · simp at hys4
    subst heqw
    obtain ⟨s0, srest, rfl, hs0⟩ := sep_head_not_digit hsep
    have ha1 := hysdig a1 (by simp)
    have ha2 := hysdig a2 (by simp)
    have ha3 := hysdig a3 (by simp)
    have ha4 := hysdig a4 (by simp)
    have hm1 := takeWhile_append_cons ms '-' (ds ++ (s0 :: srest ++ (hs ++ tail)))
      hms.2.2.1 (by decide)
    have hd2 := takeWhile_append_cons ds s0 (srest ++ (hs ++ tail))
      hds.2.2.1 hs0
    have hps := parseSep_of_shape sepSpace (s0 :: srest) hs tail hsep
      hhs.2.2.1 hhs.1
    simp only [List.cons_append, List.nil_append] at hm1 hd2 hps ⊢
    simp only [strptime_iso]
    rw [if_pos (by simp [ha1, ha2, ha3, ha4])]
    rw [hm1.2]
    dsimp only
    rw [if_pos (by simp)]
    rw [hd2.2, hps]
    dsimp only
    cases withMin
    · rw [if_neg Bool.false_ne_true] at htail
      obtain ⟨rfl, hvalid⟩ := htail
      simp only [List.append_nil] at hm1 hd2 ⊢
      rw [parseHourTail_of_shape_noMin hhs]
      dsimp only
      rw [hm1.1, hd2.1]
      rw [if_pos (by simp [digitRunOK_of hms, digitRunOK_of hds])]
      rw [mkDateTime_isSome]
      exact hvalid
    · rw [if_pos rfl] at htail
      obtain ⟨mins, rfl, hminrun, hvalid⟩ := htail
      rw [parseHourTail_of_shape_min hhs hminrun]
      dsimp only
      rw [hm1.1, hd2.1]
      rw [if_pos (by simp [digitRunOK_of hms, digitRunOK_of hds])]
      rw [mkDateTime_isSome]
      exact hvalid

theorem daysInMonth_le_31 (y m : ℕ) : daysInMonth y m ≤ 31 := by
  unfold daysInMonth
  split_ifs <;> omega

theorem strptime_YmdH_isSome (v : List Char) (h10 : v.length = 10)
    (hvd : ∀ c ∈ v, c.isDigit = true) :
    (strptime_YmdH v).isSome = true
      ↔ ValidYMDHM (digitsToNat (v.take 4)) (digitsToNat ((v.drop 4).take 2))
          (digitsToNat ((v.drop 6).take 2)) (digitsToNat (v.drop 8)) 0 := by
  rcases v with _ | ⟨c1, v⟩
  · simp at h10
  rcases v with _ | ⟨c2, v⟩
  · simp at h10
  rcases v with _ | ⟨c3, v⟩
  · simp at h10
  rcases v with _ | ⟨c4, v⟩
  · simp at h10
  rcases v with _ | ⟨c5, v⟩
  · simp at h10
  rcases v with _ | ⟨c6, v⟩
  · simp at h10
  rcases v with _ | ⟨c7, v⟩
  · simp at h10
  rcases v with _ | ⟨c8, v⟩
  · simp at h10
  rcases v with _ | ⟨c9, v⟩
  · simp at h10
  rcases v with _ | ⟨c10, v⟩
  · simp at h10
  rcases v with _ | ⟨c11, v⟩
  swap
  · simp at h10
  simp only [strptime_YmdH, List.take, List.drop]
  rw [if_pos (by simp only [List.all_eq_true]; exact fun c hc => hvd c hc)]
  constructor
  · intro h
    by_cases hr : 1 ≤ digitsToNat [c5, c6] ∧ digitsToNat [c5, c6] ≤ 12
        ∧ 1 ≤ digitsToNat [c7, c8] ∧ digitsToNat [c7, c8] ≤ 31
        ∧ digitsToNat [c9, c10] ≤ 23
    swap
    · rw [if_neg hr] at h
      exact absurd h (by simp)
    rw [if_pos hr, mkDateTime_isSome] at h
    exact h
  · intro hval
    obtain ⟨hy1, hy2, hm1, hm2, hd1, hd2, hh, _⟩ := hval
    have hdm := daysInMonth_le_31 (digitsToNat [c1, c2, c3, c4])
      (digitsToNat [c5, c6])
    rw [if_pos ⟨hm1, hm2, hd1, by omega, hh⟩, mkDateTime_isSome]
    exact ⟨hy1, hy2, hm1, hm2, hd1, hd2, hh, by omega⟩

theorem strptime_YmdHM_isSome (v : List Char) (h12 : v.length = 12)
    (hvd : ∀ c ∈ v, c.isDigit = true) :
    (strptime_YmdHM v).isSome = true
      ↔ ValidYMDHM (digitsToNat (v.take 4)) (digitsToNat ((v.drop 4).take 2))
          (digitsToNat ((v.drop 6).take 2)) (digitsToNat ((v.drop 8).take 2))
          (digitsToNat (v.drop 10)) := by
  rcases v with _ | ⟨c1, v⟩
  · simp at h12
  rcases v with _ | ⟨c2, v⟩
  · simp at h12
  rcases v with _ | ⟨c3, v⟩
  · simp at h12
  rcases v with _ | ⟨c4, v⟩
  · simp at h12
  rcases v with _ | ⟨c5, v⟩
  · simp at h12
  rcases v with _ | ⟨c6, v⟩
  · simp at h12
  rcases v with _ | ⟨c7, v⟩
  · simp at h12
  rcases v with _ | ⟨c8, v⟩
  · simp at h12
  rcases v with _ | ⟨c9, v⟩
  · simp at h12
  rcases v with _ | ⟨c10, v⟩
  · simp at h12
  rcases v with _ | ⟨c11, v⟩
  · simp at h12
  rcases v with _ | ⟨c12, v⟩
  · simp at h12
  rcases v with _ | ⟨c13, v⟩
  swap
  · simp at h12
  simp only [strptime_YmdHM, List.take, List.drop]
  rw [if_pos (by simp only [List.all_eq_true]; exact fun c hc => hvd c hc)]
  constructor
  · intro h
    by_cases hr : 1 ≤ digitsToNat [c5, c6] ∧ digitsToNat [c5, c6] ≤ 12
        ∧ 1 ≤ digitsToNat [c7, c8] ∧ digitsToNat [c7, c8] ≤ 31
        ∧ digitsToNat [c9, c10] ≤ 23 ∧ digitsToNat [c11, c12] ≤ 59
    swap
    · rw [if_neg hr] at h
      exact absurd h (by simp)
    rw [if_pos hr, mkDateTime_isSome] at h
    exact h
  · intro hval
    obtain ⟨hy1, hy2, hm1, hm2, hd1, hd2, hh, hmi⟩ := hval
    have hdm := daysInMonth_le_31 (digitsToNat [c1, c2, c3, c4])
      (digitsToNat [c5, c6])
    rw [if_pos ⟨hm1, hm2, hd1, by omega, hh, hmi⟩, mkDateTime_isSome]
    exact ⟨hy1, hy2, hm1, hm2, hd1, hd2, hh, hmi⟩

/-- C9 counterexample: `"2024-01-01T05ZZ"` carries two trailing `Z`s, so it
is not of any form the claim enumerates, yet `parse_datehour` returns a
datetime (the code strips every trailing `Z` via `rstrip("Z")`). -/
theorem parse_datehour_accepts_double_Z :
    parse_datehour "2024-01-01T05ZZ" = some ⟨2024, 1, 1, 5, 0⟩ := by decide

/-- C9 (amended).  `parse_datehour` returns a datetime exactly for the
strings accepted by the (wider) grammar of `AcceptedTimestamp`: after
stripping surrounding whitespace, a 10-digit `YYYYMMDDHH` or 12-digit
`YYYYMMDDHHMM` string with valid calendar fields; otherwise, after
removing any number of trailing `Z`s, an ISO-like form with 4-digit year,
1-2-digit month/day/hour (optionally `:` and a 1-2-digit minute), the
separator being `T`, `t`, or a non-empty whitespace run, with valid
calendar fields.  Every other string fails. -/
theorem parse_datehour_characterizes (s : String) :
    (parse_datehour s).isSome = true ↔ AcceptedTimestamp s := by
  unfold parse_datehour AcceptedTimestamp
  set v := pyStrip s.data with hv
  dsimp only
  by_cases hd : (v.all Char.isDigit && !v.isEmpty) = true
  · have hdig : ∀ c ∈ v, c.isDigit = true := by
      simp only [Bool.and_eq_true, List.all_eq_true] at hd
      exact fun c hc => hd.1 c hc
    have hne : v ≠ [] := by
      intro hnil
      rw [hnil] at hd
      simp at hd
    rw [if_pos hd]
    by_cases h10 : v.length = 10
    · rw [if_pos h10, strptime_YmdH_isSome v h10 hdig]
      constructor
      · intro hval
        exact Or.inl ⟨hdig, hne, h10, hval⟩
      · intro hacc
        rcases hacc with ⟨_, _, _, hval⟩ | ⟨_, _, h12, _⟩ | ⟨hguard, _⟩
        · exact hval
        · omega
        · exact absurd ⟨hdig, hne, Or.inl h10⟩ hguard
    · by_cases h12 : v.length = 12
      · rw [if_neg h10, if_pos h12, strptime_YmdHM_isSome v h12 hdig]
        constructor
        · intro hval
          exact Or.inr (Or.inl ⟨hdig, hne, h12, hval⟩)
        · intro hacc
          rcases hacc with ⟨_, _, h10', _⟩ | ⟨_, _, _, hval⟩ | ⟨hguard, _⟩
          · omega
          · exact hval
          · exact absurd ⟨hdig, hne, Or.inr h12⟩ hguard
      · rw [if_neg h10, if_neg h12]
        rw [orElse_isSome, orElse_isSome, orElse_isSome]
        simp only [Bool.or_eq_true]
        rw [strptime_iso_isSome, strptime_iso_isSome, strptime_iso_isSome,
          strptime_iso_isSome]
        constructor
        · intro hiso
          refine Or.inr (Or.inr ⟨?_, by tauto⟩)
          rintro ⟨_, _, h'⟩
          rcases h' with h' | h'
          · exact h10 h'
          · exact h12 h'
        · rintro (⟨_, _, h10', _⟩ | ⟨_, _, h12', _⟩ | ⟨_, hiso⟩)
          · exact absurd h10' h10
          · exact absurd h12' h12
          · tauto
  · rw [if_neg hd]
    rw [orElse_isSome, orElse_isSome, orElse_isSome]
    simp only [Bool.or_eq_true]
    rw [strptime_iso_isSome, strptime_iso_isSome, strptime_iso_isSome,
      strptime_iso_isSome]
    have hng : ¬((∀ c ∈ v, c.isDigit = true) ∧ v ≠ []
        ∧ (v.length = 10 ∨ v.length = 12)) := by
      rintro ⟨hdig, hne, _⟩
      apply hd
      simp only [Bool.and_eq_true, List.all_eq_true]
      refine ⟨fun c hc => hdig c hc, ?_⟩
      simp [List.isEmpty_iff, hne]
    constructor
    · intro hiso
      exact Or.inr (Or.inr ⟨hng, by tauto⟩)
    · rintro (⟨hdig', hne', h10', _⟩ | ⟨hdig', hne', h12', _⟩ | ⟨_, hiso⟩)
      · exact absurd ⟨hdig', hne', Or.inl h10'⟩ hng
      · exact absurd ⟨hdig', hne', Or.inr h12'⟩ hng
      · tauto
